import Mathlib

deriving instance DecidableEq for Except

/-!
# Shallow embedding of dpnd's reconciliation engine (`src/main.rs`)

Strings from the Rust source are embedded as `List Char` (`Str`); hash maps
keyed by dependency name are embedded as association lists whose key lists are
assumed `Nodup` where a theorem needs map semantics.  Filesystem state is an
explicit record threaded through the executor.  Fallible Rust functions
returning `Result` become Lean functions returning `Except`.
-/

namespace Dpnd

/-- Rust `String` / `&str`, embedded as its character sequence. -/
abbrev Str := List Char

/-- Build a `Str` from a Lean string literal. -/
def str (s : String) : Str := s.data

/-- `char::is_ascii_whitespace` from Rust: space, `\t`, `\n`, form feed, `\r`. -/
def is_ascii_whitespace (c : Char) : Bool :=
  c.toNat = 0x20 || c.toNat = 0x09 || c.toNat = 0x0A ||
  c.toNat = 0x0C || c.toNat = 0x0D

/-- `char::is_whitespace` from Rust: the Unicode `White_Space` property. -/
def is_rust_whitespace (c : Char) : Bool :=
  (0x09 ≤ c.toNat && c.toNat ≤ 0x0D) || c.toNat = 0x20 ||
  c.toNat = 0x85 || c.toNat = 0xA0 || c.toNat = 0x1680 ||
  (0x2000 ≤ c.toNat && c.toNat ≤ 0x200A) || c.toNat = 0x2028 ||
  c.toNat = 0x2029 || c.toNat = 0x202F || c.toNat = 0x205F ||
  c.toNat = 0x3000

/-- `str::trim_start` from Rust: drop leading whitespace. -/
def trim_start (s : Str) : Str := s.dropWhile is_rust_whitespace

/-- A dependency as parsed from a manifest or ledger line (`Dependency` in
`main.rs`).  The Rust struct stores a `&dyn DepTool` object fetched from the
tool registry under `tool_name`; since each registered tool's `name()` equals
its registry key (`Git::name() = "git"`), storing the name is equivalent. -/
structure Dependency where
  tool_name : Str
  source : Str
  version : Str
deriving DecidableEq, Repr

/-- `HashMap<String, Dependency>` embedded as an association list. -/
abbrev DepMap := List (Str × Dependency)

/-- `HashMap::get`: first binding of the key. -/
def lookup : DepMap → Str → Option Dependency
  | [], _ => none
  | (k, v) :: rest, n => if k = n then some v else lookup rest n

/-- The key list of a dependency map. -/
def keys (m : DepMap) : List Str := m.map Prod.fst

/-- `HashMap::remove`: drop the binding of the key. -/
def removeKey (m : DepMap) (n : Str) : DepMap :=
  m.filter (fun p => p.1 ≠ n)

/-- The `Action` enum of `main.rs`. -/
inductive Action where
  | Install
  | Remove
deriving DecidableEq, Repr

/-- Body of the first loop of `actions` in `main.rs`: the `Install` action
emitted (or not) for a single entry `(n, d)` of `new_deps`.  `Install` is
emitted when `n` is absent from `cur_deps` or bound to a dependency with a
different `(tool, source, version)` triple. -/
def installActionFor (cur : DepMap) (n : Str) (d : Dependency) :
    List (Action × Str) :=
  match lookup cur n with
  | some c =>
    if c.tool_name ≠ d.tool_name ∨ c.source ≠ d.source ∨
        c.version ≠ d.version then
      [(Action.Install, n)]
    else
      []
  | none => [(Action.Install, n)]

/-- First loop of `actions` in `main.rs`, over the entries of `new_deps`. -/
def installActions (cur : DepMap) : DepMap → List (Action × Str)
  | [] => []
  | (n, d) :: rest => installActionFor cur n d ++ installActions cur rest

/-- Second loop of `actions` in `main.rs`: for every key of `cur_deps` not
contained in `new_deps`, emit `Remove`. -/
def removeActions (new : DepMap) : DepMap → List (Action × Str)
  | [] => []
  | (n, _) :: rest =>
    (if (lookup new n).isSome then [] else [(Action.Remove, n)]) ++
      removeActions new rest

/-- `actions` from `main.rs`: the install actions are pushed first, then the
remove actions. -/
def actions (cur new : DepMap) : List (Action × Str) :=
  installActions cur new ++ removeActions new cur

/-- The filesystem state one reconciliation acts on: whether the project's
output directory exists, the set of dependency directories under it, the
ledger (state file) contents as last written (`none` = file absent), and a
count of ledger writes performed. -/
structure FsState where
  outputDirExists : Bool
  dirs : List Str
  ledger : Option DepMap
  ledgerWrites : Nat
deriving DecidableEq, Repr

/-- The failures of `install_deps` that the model can produce.  I/O failures
of `remove_dir_all` (other than `NotFound`, which the code ignores) and of the
ledger writes are not modelled: in the directory-set model those operations
always succeed.  `PanicMissingDep` models the `unwrap_or_else(|| panic!(..))`
on `new_deps.remove`. -/
inductive InstallDepsErr where
  | CreateDepOutputDirFailed (dep_name : Str)
  | FetchFailed (dep_name : Str)
  | PanicMissingDep (dep_name : Str)
deriving DecidableEq, Repr

/-- `write_state_file` from `main.rs`, at the level of the filesystem model:
truncate and rewrite the ledger with the current in-memory map. -/
def write_state_file (cur : DepMap) (fs : FsState) : FsState :=
  { fs with ledger := some cur, ledgerWrites := fs.ledgerWrites + 1 }

/-- The `while let Some((act, dep_name)) = actions.pop()` loop of
`install_deps`, given the actions in the order they are processed (i.e. the
reverse of the planner's vector).  Per action: recursively delete the
dependency directory (absence is not an error), drop the name from the
in-memory current map, rewrite the ledger, and — for installs only — look the
dependency up in `new_deps`, create its directory, invoke the fetch tool, and
on fetch success insert it into the current map and rewrite the ledger
again. -/
def execActs (fetch : Dependency → Bool) :
    List (Action × Str) → DepMap → DepMap → FsState →
    FsState × Except InstallDepsErr Unit
  | [], _, _, fs => (fs, .ok ())
  | (act, name) :: acts, cur, new, fs =>
    let fs1 : FsState := { fs with dirs := fs.dirs.filter (fun d => d ≠ name) }
    let cur1 := removeKey cur name
    let fs2 := write_state_file cur1 fs1
    if act ≠ Action.Install then
      execActs fetch acts cur1 new fs2
    else
      match lookup new name with
      | none => (fs2, .error (.PanicMissingDep name))
      | some d =>
        let new1 := removeKey new name
        if name ∈ fs2.dirs then
          (fs2, .error (.CreateDepOutputDirFailed name))
        else
          let fs3 : FsState := { fs2 with dirs := name :: fs2.dirs }
          if fetch d then
            let cur2 := (name, d) :: cur1
            let fs4 := write_state_file cur2 fs3
            execActs fetch acts cur2 new1 fs4
          else
            (fs3, .error (.FetchFailed name))

/-- `install_deps` from `main.rs`.  If the planner emits no actions, the
ledger is written once when it did not previously exist and nothing else
happens.  Otherwise the actions vector is consumed by popping from its end,
which `execActs` models by processing the reversed list front to back. -/
def install_deps (fetch : Dependency → Bool) (state_file_exists : Bool)
    (cur new : DepMap) (fs : FsState) : FsState × Except InstallDepsErr Unit :=
  let acts := actions cur new
  if acts.isEmpty then
    if !state_file_exists then
      (write_state_file cur fs, .ok ())
    else
      (fs, .ok ())
  else
    execActs fetch acts.reverse cur new fs

/-! Section: Manifest and ledger parsing (`parse_deps_conf`, `parse_output_dir`,
`parse_deps` from `main.rs`) -/

/-- `conf_line_is_skippable` from `main.rs`: empty, or starting with `#`. -/
def conf_line_is_skippable : Str → Bool
  | [] => true
  | c :: _ => c = '#'

/-- Rust `str::split(sep)`: the pieces between occurrences of `sep`,
including empty pieces; always at least one piece. -/
def splitOn (sep : Char) : Str → List Str
  | [] => [[]]
  | c :: rest =>
    if c = sep then
      [] :: splitOn sep rest
    else
      match splitOn sep rest with
      | [] => [[c]]
      | l :: ls => (c :: l) :: ls

/-- Rust `str::lines`: split at `\n`, drop a final empty piece produced by a
trailing newline, and strip one trailing `\r` from each line. -/
def linesOf (s : Str) : List Str :=
  let ps := splitOn '\n' s
  let ps := if ps.getLast? = some [] then ps.dropLast else ps
  ps.map (fun l => if l.getLast? = some '\r' then l.dropLast else l)

/-- Worker for `split_ascii_whitespace`: `cur` is the reversed current word. -/
def split_ws_go : Str → Str → List Str
  | cur, [] => if cur.isEmpty then [] else [cur.reverse]
  | cur, c :: rest =>
    if is_ascii_whitespace c then
      if cur.isEmpty then
        split_ws_go [] rest
      else
        cur.reverse :: split_ws_go [] rest
    else
      split_ws_go (c :: cur) rest

/-- Rust `str::split_ascii_whitespace`: maximal runs of non-whitespace. -/
def split_ascii_whitespace (s : Str) : List Str := split_ws_go [] s

/-- The character class of the `bad_dep_name_chars` regex `[^a-zA-Z0-9._-]`,
complemented: the characters *allowed* in a dependency name. -/
def is_dep_name_char (c : Char) : Bool :=
  (0x61 ≤ c.toNat && c.toNat ≤ 0x7A) || (0x41 ≤ c.toNat && c.toNat ≤ 0x5A) ||
  (0x30 ≤ c.toNat && c.toNat ≤ 0x39) || c.toNat = 0x2E || c.toNat = 0x5F ||
  c.toNat = 0x2D

/-- The UTF-8 byte length of a character, used to report the byte offset of
the first invalid character exactly as `regex::Match::start` does. -/
def utf8_len (c : Char) : Nat :=
  if c.toNat < 0x80 then 1
  else if c.toNat < 0x800 then 2
  else if c.toNat < 0x10000 then 3
  else 4

/-- `bad_dep_name_chars.find(..)` from `main.rs`: byte offset of the first
character of the name outside `[a-zA-Z0-9._-]`, if any. -/
def find_bad_char : Str → Nat → Option Nat
  | [], _ => none
  | c :: rest, idx =>
    if is_dep_name_char c then find_bad_char rest (idx + utf8_len c)
    else some idx

/-- The manifest file name fixed in `main`. -/
def deps_file_name : Str := str "dpnd.txt"

/-- The reserved ledger file name, `format!("current_{}", deps_file_name)`. -/
def state_file_name : Str := str "current_dpnd.txt"

/-- The fetch-tool registry keys: `main` registers exactly `"git"`. -/
def tool_names : List Str := [str "git"]

/-- A `PathBuf` at the path-component level. -/
abbrev PathSegs := List Str

/-- `PathBuf::push` at the component level: pushing an empty string adds no
path component. -/
def pathPush (p : PathSegs) (part : Str) : PathSegs :=
  if part.isEmpty then p else p ++ [part]

/-- The `ParseOutputDirError` enum of `main.rs`. -/
inductive ParseOutputDirError where
  | MissingOutputDir
  | InvalidPart (ln_num : Nat) (part : Str)
deriving DecidableEq, Repr

/-- The inner loop of `parse_output_dir`: check each `/`-separated part,
rejecting `.` and `..`, and push the rest onto the path. -/
def checkParts (ln_num : Nat) : List Str → PathSegs →
    Except ParseOutputDirError PathSegs
  | [], path => .ok path
  | part :: parts, path =>
    if part = str "." ∨ part = str ".." then
      .error (.InvalidPart ln_num part)
    else
      checkParts ln_num parts (pathPush path part)

/-- `parse_output_dir` from `main.rs`.  The Rust function draws from a shared
`Enumerate<Lines>` iterator, consuming lines up to and including the first
non-skippable one; the embedding returns the unconsumed remainder alongside
the parsed path. -/
def parse_output_dir : List (Nat × Str) →
    Except ParseOutputDirError (PathSegs × List (Nat × Str))
  | [] => .error .MissingOutputDir
  | (i, line) :: rest =>
    let ln := trim_start line
    if conf_line_is_skippable ln then
      parse_output_dir rest
    else
      match checkParts (i + 1) (splitOn '/' ln) [] with
      | .error e => .error e
      | .ok path => .ok (path, rest)

/-- The `ParseDepsError` enum of `main.rs`. -/
inductive ParseDepsError where
  | DupDepName (ln_num : Nat) (dep_name : Str) (orig_ln_num : Nat)
  | DepNameContainsInvalidChar (ln_num : Nat) (dep_name : Str)
      (bad_char_idx : Nat)
  | ReservedDepName (ln_num : Nat) (dep_name : Str)
  | InvalidDepSpec (ln_num : Nat) (line : Str)
  | UnknownTool (ln_num : Nat) (dep_name : Str) (tool_name : Str)
deriving DecidableEq, Repr

/-- One iteration of the `parse_deps` loop in `main.rs`, acting on the
accumulated `dep_defns` (name, dependency, defining line number).  Checks in
source order: skippability, the 4-field split, invalid name characters, the
reserved ledger name, duplicate definitions, and the tool registry. -/
def parse_dep_line (acc : List (Str × Dependency × Nat)) (i : Nat)
    (line : Str) : Except ParseDepsError (List (Str × Dependency × Nat)) :=
  let ln_num := i + 1
  let ln := trim_start line
  if conf_line_is_skippable ln then
    .ok acc
  else
    match split_ascii_whitespace ln with
    | [local_name, tool_name, source, version] =>
      match find_bad_char local_name 0 with
      | some idx => .error (.DepNameContainsInvalidChar ln_num local_name idx)
      | none =>
        if local_name = state_file_name then
          .error (.ReservedDepName ln_num local_name)
        else
          match acc.find? (fun t => t.1 = local_name) with
          | some t => .error (.DupDepName ln_num local_name t.2.2)
          | none =>
            if tool_names.contains tool_name then
              .ok (acc ++
                [(local_name, Dependency.mk tool_name source version, ln_num)])
            else
              .error (.UnknownTool ln_num local_name tool_name)
    | _ => .error (.InvalidDepSpec ln_num ln)

/-- The `for (i, line) in lines` loop of `parse_deps`, folding
`parse_dep_line` over the enumerated lines with early error exit. -/
def parse_dep_lines (acc : List (Str × Dependency × Nat)) :
    List (Nat × Str) → Except ParseDepsError (List (Str × Dependency × Nat))
  | [] => .ok acc
  | (i, line) :: rest =>
    match parse_dep_line acc i line with
    | .error e => .error e
    | .ok acc1 => parse_dep_lines acc1 rest

/-- `parse_deps` from `main.rs`: run the loop from an empty `dep_defns` and
project the accumulated definitions down to the dependency map. -/
def parse_deps (lines : List (Nat × Str)) : Except ParseDepsError DepMap :=
  match parse_dep_lines [] lines with
  | .error e => .error e
  | .ok defns => .ok (defns.map (fun t => (t.1, t.2.1)))

/-- The `ParseDepsConfError` enum of `main.rs`. -/
inductive ParseDepsConfError where
  | ParseOutputDirFailed (e : ParseOutputDirError)
  | ParseDepsFailed (e : ParseDepsError)
deriving DecidableEq, Repr

/-- The `DepsConf` struct of `main.rs`. -/
structure DepsConf where
  output_dir : PathSegs
  deps : DepMap
deriving DecidableEq, Repr

/-- `parse_deps_conf` from `main.rs`: the output directory from the first
non-skippable line, then the dependency map from the remaining lines. -/
def parse_deps_conf (conts : Str) : Except ParseDepsConfError DepsConf :=
  match parse_output_dir (linesOf conts).enum with
  | .error e => .error (.ParseOutputDirFailed e)
  | .ok (output_dir, rest) =>
    match parse_deps rest with
    | .error e => .error (.ParseDepsFailed e)
    | .ok deps => .ok ⟨output_dir, deps⟩

/-! Section: Ledger loading (`install_proj_deps`, lines 236–259 of `main.rs`) -/

/-- Whether a byte is a UTF-8 continuation byte. -/
def is_utf8_cont (b : Nat) : Bool := 0x80 ≤ b && b ≤ 0xBF

/-- `String::from_utf8` from Rust: decode a byte sequence as UTF-8, rejecting
truncated sequences, stray continuation bytes, overlong encodings, surrogate
code points and values above `0x10FFFF`. -/
def utf8Decode : List Nat → Option (List Char)
  | [] => some []
  | b :: rest =>
    if b ≤ 0x7F then
      (utf8Decode rest).map (fun cs => Char.ofNat b :: cs)
    else if 0xC2 ≤ b && b ≤ 0xDF then
      match rest with
      | b1 :: rest1 =>
        if is_utf8_cont b1 then
          (utf8Decode rest1).map
            (fun cs => Char.ofNat ((b - 0xC0) * 0x40 + (b1 - 0x80)) :: cs)
        else none
      | [] => none
    else if b = 0xE0 then
      match rest with
      | b1 :: b2 :: rest2 =>
        if (0xA0 ≤ b1 && b1 ≤ 0xBF) && is_utf8_cont b2 then
          (utf8Decode rest2).map (fun cs =>
            Char.ofNat ((b - 0xE0) * 0x1000 + (b1 - 0x80) * 0x40 + (b2 - 0x80))
              :: cs)
        else none
      | _ => none
    else if (0xE1 ≤ b && b ≤ 0xEC) || b = 0xEE || b = 0xEF then
      match rest with
      | b1 :: b2 :: rest2 =>
        if is_utf8_cont b1 && is_utf8_cont b2 then
          (utf8Decode rest2).map (fun cs =>
            Char.ofNat ((b - 0xE0) * 0x1000 + (b1 - 0x80) * 0x40 + (b2 - 0x80))
              :: cs)
        else none
      | _ => none
    else if b = 0xED then
      match rest with
      | b1 :: b2 :: rest2 =>
        if (0x80 ≤ b1 && b1 ≤ 0x9F) && is_utf8_cont b2 then
          (utf8Decode rest2).map (fun cs =>
            Char.ofNat ((b - 0xE0) * 0x1000 + (b1 - 0x80) * 0x40 + (b2 - 0x80))
              :: cs)
        else none
      | _ => none
    else if b = 0xF0 then
      match rest with
      | b1 :: b2 :: b3 :: rest3 =>
        if ((0x90 ≤ b1 && b1 ≤ 0xBF) && is_utf8_cont b2) && is_utf8_cont b3 then
          (utf8Decode rest3).map (fun cs =>
            Char.ofNat ((b - 0xF0) * 0x40000 + (b1 - 0x80) * 0x1000 +
              (b2 - 0x80) * 0x40 + (b3 - 0x80)) :: cs)
        else none
      | _ => none
    else if 0xF1 ≤ b && b ≤ 0xF3 then
      match rest with
      | b1 :: b2 :: b3 :: rest3 =>
        if (is_utf8_cont b1 && is_utf8_cont b2) && is_utf8_cont b3 then
          (utf8Decode rest3).map (fun cs =>
            Char.ofNat ((b - 0xF0) * 0x40000 + (b1 - 0x80) * 0x1000 +
              (b2 - 0x80) * 0x40 + (b3 - 0x80)) :: cs)
        else none
      | _ => none
    else if b = 0xF4 then
      match rest with
      | b1 :: b2 :: b3 :: rest3 =>
        if ((0x80 ≤ b1 && b1 ≤ 0x8F) && is_utf8_cont b2) && is_utf8_cont b3 then
          (utf8Decode rest3).map (fun cs =>
            Char.ofNat ((b - 0xF0) * 0x40000 + (b1 - 0x80) * 0x1000 +
              (b2 - 0x80) * 0x40 + (b3 - 0x80)) :: cs)
        else none
      | _ => none
    else none

/-- The UTF-8 bytes of an ASCII string, for concrete ledger contents. -/
def strBytes (s : Str) : List Nat := s.map Char.toNat

/-- The ledger-loading failures of `install_proj_deps` (lines 236–259 of
`main.rs`).  `ReadStateFileFailed` (an I/O error other than `NotFound`) is
not modelled: the file is either present with known bytes or absent. -/
inductive InstallProjDepsErr where
  | ConvStateFileUtf8Failed
  | ParseStateFileFailed (e : ParseDepsError)
deriving DecidableEq, Repr

/-- Lines 236–259 of `main.rs`: read the state file via `try_read` (`none`
means the file does not exist and yields `(false, vec![])`), require UTF-8,
and parse the dependency lines.  Returns `(state_file_exists, cur_deps)`. -/
def load_state (file : Option (List Nat)) :
    Except InstallProjDepsErr (Bool × DepMap) :=
  let p : Bool × List Nat :=
    match file with
    | some conts => (true, conts)
    | none => (false, [])
  match utf8Decode p.2 with
  | none => .error .ConvStateFileUtf8Failed
  | some chars =>
    match parse_deps (linesOf chars).enum with
    | .error e => .error (.ParseStateFileFailed e)
    | .ok m => .ok (p.1, m)

/-! Section: One project's install flow (`install` / `install_proj_deps`) -/

/-- The errors of one project's install flow that the model distinguishes:
manifest parsing vs the reconciliation itself. -/
inductive InstallErrM where
  | ParseDepsConfFailed (e : ParseDepsConfError)
  | InstallDepsFailed (e : InstallDepsErr)
deriving DecidableEq, Repr

/-- One iteration of the project loop in `install` (`main.rs` lines 136–151)
followed by `install_proj_deps`: parse the manifest — returning before any
filesystem mutation on a parse error — then create the output directory and
reconcile.  The ledger is held in `fs.ledger` already parsed; its byte-level
loading is modelled separately by `load_state`. -/
def installProject (fetch : Dependency → Bool) (manifest : Str)
    (fs : FsState) : FsState × Except InstallErrM Unit :=
  match parse_deps_conf manifest with
  | .error e => (fs, .error (.ParseDepsConfFailed e))
  | .ok conf =>
    let state_file_exists := fs.ledger.isSome
    let cur := fs.ledger.getD []
    let fs1 : FsState := { fs with outputDirExists := true }
    match install_deps fetch state_file_exists cur conf.deps fs1 with
    | (fs2, .ok ()) => (fs2, .ok ())
    | (fs2, .error e) => (fs2, .error (.InstallDepsFailed e))

/-! Section: Ledger encoding (`write_state_file`'s line format) -/

/-- One ledger line as formatted by `write_state_file`:
`"{} {} {} {}"` of name, tool name, source and version (newline separate). -/
def dep_line (p : Str × Dependency) : Str :=
  p.1 ++ [' '] ++ p.2.tool_name ++ [' '] ++ p.2.source ++ [' '] ++
    p.2.version

/-- The full ledger text written by `write_state_file`: each entry's line
terminated by a newline, in the map's iteration order. -/
def encode_state (m : DepMap) : Str :=
  (m.map (fun p => dep_line p ++ ['\n'])).flatten

/-! Section: Spec-side definitions -/

/-- Conceptual application of a planned action list to the current map, from
the spec's diff-correctness property (§8.3): an installed name takes its
desired binding, a removed name disappears, an untouched name keeps its
current binding. -/
def applyActions (acts : List (Action × Str)) (cur new : DepMap) (n : Str) :
    Option Dependency :=
  if (Action.Install, n) ∈ acts then lookup new n
  else if (Action.Remove, n) ∈ acts then none
  else lookup cur n

/-- Validity of a dependency name per the manifest grammar: nonempty, only
characters from `[a-zA-Z0-9._-]`, and not the reserved ledger file name. -/
def valid_dep_name (n : Str) : Prop :=
  n ≠ [] ∧ (∀ c ∈ n, is_dep_name_char c) ∧ n ≠ state_file_name

/-- Validity of a free-form field (source or version): nonempty and free of
ASCII whitespace. -/
def valid_field (s : Str) : Prop :=
  s ≠ [] ∧ ∀ c ∈ s, ¬ is_ascii_whitespace c

/-- A valid current-state map entry, as C4 constrains them. -/
def valid_dep_entry (n : Str) (d : Dependency) : Prop :=
  valid_dep_name n ∧ d.tool_name ∈ tool_names ∧ valid_field d.source ∧
    valid_field d.version

instance (n : Str) : Decidable (valid_dep_name n) := by
  unfold valid_dep_name
  infer_instance

instance (s : Str) : Decidable (valid_field s) := by
  unfold valid_field
  infer_instance

instance (n : Str) (d : Dependency) : Decidable (valid_dep_entry n d) := by
  unfold valid_dep_entry
  infer_instance

/-- A concrete dependency used by concrete witnesses. -/
def depB : Dependency := ⟨str "git", str "git://localhost/b.git", str "master"⟩

/-- A second concrete dependency used by concrete witnesses. -/
def depA : Dependency := ⟨str "git", str "git://localhost/a.git", str "v1"⟩

/-! Section: Association-list map lemmas -/

theorem lookup_isSome_of_mem {m : DepMap} {n : Str} {d : Dependency}
    (h : (n, d) ∈ m) : (lookup m n).isSome := by
  induction m with
  | nil => simp at h
  | cons p rest ih =>
    obtain ⟨k, v⟩ := p
    rcases List.mem_cons.mp h with h1 | h1
    · simp only [Prod.mk.injEq] at h1
      obtain ⟨rfl, rfl⟩ := h1
      simp [lookup]
    · simp only [lookup]
      split
      · rfl
      · exact ih h1

theorem lookup_eq_some_of_mem_nodup {m : DepMap} {n : Str} {d : Dependency}
    (hnd : (keys m).Nodup) (h : (n, d) ∈ m) : lookup m n = some d := by
  induction m with
  | nil => simp at h
  | cons p rest ih =>
    obtain ⟨k, v⟩ := p
    simp only [keys, List.map_cons, List.nodup_cons] at hnd
    rcases List.mem_cons.mp h with h1 | h1
    · simp only [Prod.mk.injEq] at h1
      obtain ⟨rfl, rfl⟩ := h1
      simp [lookup]
    · have hk : k ≠ n := by
        rintro rfl
        exact hnd.1 (List.mem_map_of_mem Prod.fst h1)
      simp only [lookup, if_neg hk]
      exact ih hnd.2 h1

theorem mem_of_lookup_eq_some {m : DepMap} {n : Str} {d : Dependency}
    (h : lookup m n = some d) : (n, d) ∈ m := by
  induction m with
  | nil => simp [lookup] at h
  | cons p rest ih =>
    obtain ⟨k, v⟩ := p
    simp only [lookup] at h
    split at h
    · obtain rfl := Option.some.inj h
      subst ‹k = n›
      exact List.mem_cons_self _ _
    · exact List.mem_cons_of_mem _ (ih h)

theorem lookup_isSome_iff_mem_keys {m : DepMap} {n : Str} :
    (lookup m n).isSome ↔ n ∈ keys m := by
  induction m with
  | nil => simp [lookup, keys]
  | cons p rest ih =>
    obtain ⟨k, v⟩ := p
    have hkeys : keys ((k, v) :: rest) = k :: keys rest := rfl
    rw [hkeys]
    constructor
    · intro h
      simp only [lookup] at h
      by_cases hk : k = n
      · exact List.mem_cons.mpr (Or.inl hk.symm)
      · rw [if_neg hk] at h
        exact List.mem_cons.mpr (Or.inr (ih.mp h))
    · intro h
      simp only [lookup]
      by_cases hk : k = n
      · rw [if_pos hk]
        rfl
      · rw [if_neg hk]
        rcases List.mem_cons.mp h with h1 | h1
        · exact absurd h1.symm hk
        · exact ih.mpr h1

theorem keys_removeKey (m : DepMap) (n : Str) :
    keys (removeKey m n) = (keys m).filter (fun k => k ≠ n) := by
  induction m with
  | nil => rfl
  | cons p rest ih =>
    obtain ⟨k, v⟩ := p
    by_cases hk : k = n <;>
      simpa [removeKey, keys, List.filter_cons, hk] using ih

theorem not_mem_keys_removeKey (m : DepMap) (n : Str) :
    n ∉ keys (removeKey m n) := by
  rw [keys_removeKey]
  simp

/-! Section: Planner lemmas -/

theorem dep_ne_iff (c d : Dependency) :
    (c.tool_name ≠ d.tool_name ∨ c.source ≠ d.source ∨
      c.version ≠ d.version) ↔ c ≠ d := by
  cases c
  cases d
  simp only [ne_eq, Dependency.mk.injEq, not_and_or]

theorem mem_installActionFor_iff {cur : DepMap} {n : Str} {d : Dependency}
    {a : Action × Str} :
    a ∈ installActionFor cur n d ↔
      a = (Action.Install, n) ∧ lookup cur n ≠ some d := by
  cases hl : lookup cur n with
  | none => simp [installActionFor, hl]
  | some c =>
    simp only [installActionFor, hl]
    by_cases hcd : c = d
    · have hnot : ¬ (c.tool_name ≠ d.tool_name ∨ c.source ≠ d.source ∨
          c.version ≠ d.version) := by
        rw [dep_ne_iff]
        exact not_not_intro hcd
      rw [if_neg hnot]
      subst hcd
      simp
    · rw [if_pos ((dep_ne_iff c d).mpr hcd)]
      simp [hcd]

theorem mem_installActions_iff {cur new : DepMap} {a : Action × Str} :
    a ∈ installActions cur new ↔
      a.1 = Action.Install ∧ ∃ d, (a.2, d) ∈ new ∧ lookup cur a.2 ≠ some d := by
  induction new with
  | nil => simp [installActions]
  | cons p rest ih =>
    obtain ⟨k, v⟩ := p
    obtain ⟨act, nm⟩ := a
    simp only [installActions, List.mem_append, mem_installActionFor_iff, ih,
      List.mem_cons, Prod.mk.injEq]
    constructor
    · rintro (⟨⟨rfl, rfl⟩, hb⟩ | ⟨rfl, d, hd, hb⟩)
      · exact ⟨rfl, v, Or.inl ⟨rfl, rfl⟩, hb⟩
      · exact ⟨rfl, d, Or.inr hd, hb⟩
    · rintro ⟨rfl, d, (⟨rfl, rfl⟩ | hd), hb⟩
      · exact Or.inl ⟨⟨rfl, rfl⟩, hb⟩
      · exact Or.inr ⟨rfl, d, hd, hb⟩

theorem mem_removeActions_iff {new cur : DepMap} {a : Action × Str} :
    a ∈ removeActions new cur ↔
      a.1 = Action.Remove ∧ a.2 ∈ keys cur ∧ lookup new a.2 = none := by
  induction cur with
  | nil => simp [removeActions, keys]
  | cons p rest ih =>
    obtain ⟨k, v⟩ := p
    obtain ⟨act, nm⟩ := a
    simp only [removeActions, List.mem_append, ih, keys, List.map_cons,
      List.mem_cons]
    by_cases hs : (lookup new k).isSome
    · have hknone : ¬ lookup new k = none := by
        simp [Option.isSome_iff_ne_none.mp hs]
      rw [if_pos hs]
      simp only [List.not_mem_nil, false_or]
      constructor
      · rintro ⟨rfl, hm, hn⟩
        exact ⟨rfl, Or.inr hm, hn⟩
      · rintro ⟨rfl, (rfl | hm), hn⟩
        · exact absurd hn hknone
        · exact ⟨rfl, hm, hn⟩
    · have hknone : lookup new k = none := Option.not_isSome_iff_eq_none.mp hs
      rw [if_neg hs]
      simp only [List.mem_singleton, Prod.mk.injEq]
      constructor
      · rintro (⟨rfl, rfl⟩ | ⟨rfl, hm, hn⟩)
        · exact ⟨rfl, Or.inl rfl, hknone⟩
        · exact ⟨rfl, Or.inr hm, hn⟩
      · rintro ⟨rfl, (rfl | hm), hn⟩
        · exact Or.inl ⟨rfl, rfl⟩
        · exact Or.inr ⟨rfl, hm, hn⟩

theorem installActions_eq_nil {cur new : DepMap}
    (h : ∀ p ∈ new, lookup cur p.1 = some p.2) :
    installActions cur new = [] := by
  induction new with
  | nil => rfl
  | cons p rest ih =>
    obtain ⟨n, d⟩ := p
    have hn : lookup cur n = some d := h (n, d) (List.mem_cons_self _ _)
    simp only [installActions, installActionFor, hn]
    rw [if_neg (by rw [dep_ne_iff]; simp), List.nil_append]
    exact ih fun q hq => h q (List.mem_cons_of_mem _ hq)

theorem removeActions_eq_nil {new cur : DepMap}
    (h : ∀ p ∈ cur, (lookup new p.1).isSome) :
    removeActions new cur = [] := by
  induction cur with
  | nil => rfl
  | cons p rest ih =>
    obtain ⟨n, d⟩ := p
    have hn := h (n, d) (List.mem_cons_self _ _)
    simp only [removeActions]
    rw [if_pos hn, List.nil_append]
    exact ih fun q hq => h q (List.mem_cons_of_mem _ hq)

/-! Section: C2: diff correctness of the planner -/

/-- Claim C2: the planner emits `Install(n)` exactly for names `n` desired with
a binding absent from or different in the current map, `Remove(n)` exactly
for current names not desired, and no action for unchanged names;
consequently applying the emitted actions to `current` yields `desired`
pointwise (same key set, same triples). -/
theorem planner_diff_correct (cur new : DepMap)
    (hcur : (keys cur).Nodup) (hnew : (keys new).Nodup) :
    (∀ n, (Action.Install, n) ∈ actions cur new ↔
      ∃ d, lookup new n = some d ∧ lookup cur n ≠ some d) ∧
    (∀ n, (Action.Remove, n) ∈ actions cur new ↔
      n ∈ keys cur ∧ lookup new n = none) ∧
    (∀ n d, lookup cur n = some d → lookup new n = some d →
      ∀ a : Action, (a, n) ∉ actions cur new) ∧
    (∀ n, applyActions (actions cur new) cur new n = lookup new n) := by
  have hinst : ∀ n, (Action.Install, n) ∈ actions cur new ↔
      ∃ d, lookup new n = some d ∧ lookup cur n ≠ some d := by
    intro n
    unfold actions
    rw [List.mem_append]
    constructor
    · rintro (h | h)
      · obtain ⟨-, d, hd, hb⟩ := mem_installActions_iff.mp h
        exact ⟨d, lookup_eq_some_of_mem_nodup hnew hd, hb⟩
      · exact absurd (mem_removeActions_iff.mp h).1 (by simp)
    · rintro ⟨d, hd, hb⟩
      exact Or.inl
        (mem_installActions_iff.mpr ⟨rfl, d, mem_of_lookup_eq_some hd, hb⟩)
  have hrem : ∀ n, (Action.Remove, n) ∈ actions cur new ↔
      n ∈ keys cur ∧ lookup new n = none := by
    intro n
    unfold actions
    rw [List.mem_append]
    constructor
    · rintro (h | h)
      · exact absurd (mem_installActions_iff.mp h).1 (by simp)
      · exact (mem_removeActions_iff.mp h).2
    · intro h
      exact Or.inr (mem_removeActions_iff.mpr ⟨rfl, h.1, h.2⟩)
  have hnoact : ∀ n d, lookup cur n = some d → lookup new n = some d →
      ∀ a : Action, (a, n) ∉ actions cur new := by
    intro n d hc hn a ha
    cases a with
    | Install =>
      obtain ⟨d', hd', hb⟩ := (hinst n).mp ha
      rw [hn] at hd'
      obtain rfl := Option.some.inj hd'
      exact hb hc
    | Remove =>
      obtain ⟨-, hnew'⟩ := (hrem n).mp ha
      rw [hn] at hnew'
      cases hnew'
  refine ⟨hinst, hrem, hnoact, fun n => ?_⟩
  unfold applyActions
  by_cases hi : (Action.Install, n) ∈ actions cur new
  · rw [if_pos hi]
  · rw [if_neg hi]
    by_cases hr : (Action.Remove, n) ∈ actions cur new
    · rw [if_pos hr]
      exact ((hrem n).mp hr).2.symm
    · rw [if_neg hr]
      cases hn : lookup new n with
      | some d =>
        by_contra hcn
        exact hi ((hinst n).mpr ⟨d, hn, hcn⟩)
      | none =>
        cases hc : lookup cur n with
        | none => rfl
        | some d =>
          refine absurd ((hrem n).mpr ⟨?_, hn⟩) hr
          exact lookup_isSome_iff_mem_keys.mp (by simp [hc])

/-- Witness for C2 at concrete maps: conceptually applying the planner's
actions to the current map yields the desired map at the installed name and
at the removed name. -/
theorem planner_diff_correct_witness :
    applyActions (actions [(str "a", depA)] [(str "B", depB)])
        [(str "a", depA)] [(str "B", depB)] (str "B") =
      lookup [(str "B", depB)] (str "B") ∧
    applyActions (actions [(str "a", depA)] [(str "B", depB)])
        [(str "a", depA)] [(str "B", depB)] (str "a") =
      lookup [(str "B", depB)] (str "a") :=
  ⟨(planner_diff_correct [(str "a", depA)] [(str "B", depB)]
      (by decide) (by decide)).2.2.2 (str "B"),
    (planner_diff_correct [(str "a", depA)] [(str "B", depB)]
      (by decide) (by decide)).2.2.2 (str "a")⟩

/-! Section: C3: idempotence -/

/-- Claim C3: if the ledger map and the manifest map agree pointwise, the
planner emits zero actions, and re-running reconciliation against an existing
ledger changes neither the ledger nor the directory set (the filesystem state
is returned untouched). -/
theorem reconcile_idempotent (cur new : DepMap)
    (hnew : (keys new).Nodup)
    (heq : ∀ n, lookup cur n = lookup new n) :
    actions cur new = [] ∧
    ∀ (fetch : Dependency → Bool) (fs : FsState),
      install_deps fetch true cur new fs = (fs, .ok ()) := by
  have hact : actions cur new = [] := by
    unfold actions
    rw [installActions_eq_nil, removeActions_eq_nil, List.append_nil]
    · intro p hp
      rw [← heq p.1]
      exact lookup_isSome_of_mem (show (p.1, p.2) ∈ cur by simpa using hp)
    · intro p hp
      rw [heq p.1]
      exact lookup_eq_some_of_mem_nodup hnew (show (p.1, p.2) ∈ new by
        simpa using hp)
  refine ⟨hact, fun fetch fs => ?_⟩
  unfold install_deps
  simp [hact]

/-- Witness for C3 at a concrete map equal on both sides. -/
theorem reconcile_idempotent_witness :
    actions [(str "a", depA)] [(str "a", depA)] = [] ∧
    ∀ (fetch : Dependency → Bool) (fs : FsState),
      install_deps fetch true [(str "a", depA)] [(str "a", depA)] fs =
        (fs, .ok ()) :=
  reconcile_idempotent _ _ (by decide) (fun _ => rfl)

/-! Section: C9: removes execute before installs -/

/-- Claim C9: the planner's vector lists every `Install` before every `Remove`,
and the executor consumes that vector by popping from its end (embedded as
processing the reversed list front to back), so the processed order is all
`Remove` actions first, then all `Install` actions: no install precedes a
pending remove. -/
theorem removes_before_installs (cur new : DepMap) :
    (∀ a ∈ installActions cur new, a.1 = Action.Install) ∧
    (∀ a ∈ removeActions new cur, a.1 = Action.Remove) ∧
    actions cur new = installActions cur new ++ removeActions new cur ∧
    (actions cur new).reverse =
      (removeActions new cur).reverse ++ (installActions cur new).reverse ∧
    ∀ (fetch : Dependency → Bool) (state_file_exists : Bool) (fs : FsState),
      actions cur new ≠ [] →
      install_deps fetch state_file_exists cur new fs =
        execActs fetch (actions cur new).reverse cur new fs := by
  refine ⟨?_, ?_, rfl, ?_, ?_⟩
  · intro a ha
    exact (mem_installActions_iff.mp ha).1
  · intro a ha
    exact (mem_removeActions_iff.mp ha).1
  · unfold actions
    exact List.reverse_append _ _
  · intro fetch sfe fs hne
    unfold install_deps
    rw [if_neg]
    simpa using hne

/-- Witness for C9 at a concrete nonempty action list. -/
theorem removes_before_installs_witness :
    install_deps (fun _ => true) true [] [(str "B", depB)]
        ⟨true, [], some [], 0⟩ =
      execActs (fun _ => true) (actions [] [(str "B", depB)]).reverse []
        [(str "B", depB)] ⟨true, [], some [], 0⟩ :=
  (removes_before_installs [] [(str "B", depB)]).2.2.2.2 _ _ _ (by decide)

/-! Section: C7: the zero-action paths of `install_deps` -/

/-- Claim C7: with zero planned actions, `install_deps` writes the ledger
exactly once (with the current, possibly empty, map) when the ledger file did
not previously exist, and performs no write at all — returning the
filesystem state untouched — when it did. -/
theorem zero_actions_ledger (fetch : Dependency → Bool)
    (state_file_exists : Bool) (cur new : DepMap) (fs : FsState)
    (h : actions cur new = []) :
    (state_file_exists = false →
      install_deps fetch state_file_exists cur new fs =
        ({ fs with ledger := some cur, ledgerWrites := fs.ledgerWrites + 1 },
          .ok ())) ∧
    (state_file_exists = true →
      install_deps fetch state_file_exists cur new fs = (fs, .ok ())) := by
  constructor <;> intro hx <;> subst hx <;> unfold install_deps <;>
    simp [h, write_state_file]

/-- Witness for C7: on a fresh project with an empty manifest the ledger is
written once; against an existing ledger nothing is written. -/
theorem zero_actions_ledger_witness :
    install_deps (fun _ => true) false [] [] ⟨false, [], none, 0⟩ =
      (⟨false, [], some [], 1⟩, .ok ()) ∧
    install_deps (fun _ => true) true [] [] ⟨false, [], some [], 3⟩ =
      (⟨false, [], some [], 3⟩, .ok ()) :=
  ⟨(zero_actions_ledger (fun _ => true) false [] [] ⟨false, [], none, 0⟩
      rfl).1 rfl,
    (zero_actions_ledger (fun _ => true) true [] [] ⟨false, [], some [], 3⟩
      rfl).2 rfl⟩

/-! Section: C1: ledger truthfulness when a fetch fails -/

theorem execActs_fetchFailed (fetch : Dependency → Bool) :
    ∀ (acts : List (Action × Str)) (cur new : DepMap) (fs fs' : FsState)
      (B : Str),
      fs.dirs.Perm (keys cur) →
      execActs fetch acts cur new fs = (fs', .error (.FetchFailed B)) →
      ∃ m, fs'.ledger = some m ∧ B ∉ keys m ∧
        fs'.dirs.Perm (B :: keys m) := by
  intro acts
  induction acts with
  | nil =>
    intro cur new fs fs' B hperm h
    simp [execActs] at h
  | cons a acts ih =>
    obtain ⟨act, name⟩ := a
    intro cur new fs fs' B hperm h
    simp only [execActs] at h
    have hperm2 :
        (fs.dirs.filter (fun d => d ≠ name)).Perm (keys (removeKey cur name)) := by
      rw [keys_removeKey]
      exact hperm.filter _
    by_cases hact : act = Action.Install
    · rw [if_neg (not_not_intro hact)] at h
      subst hact
      cases hl : lookup new name with
      | none =>
        simp only [hl, Prod.mk.injEq] at h
        cases h.2
      | some d =>
        simp only [hl] at h
        have hnm : name ∉
            (write_state_file (removeKey cur name)
              { fs with dirs := fs.dirs.filter (fun d => d ≠ name) }).dirs := by
          simp [write_state_file, List.mem_filter]
        rw [if_neg hnm] at h
        cases hf : fetch d with
        | true =>
          rw [hf, if_pos rfl] at h
          refine ih _ _ _ _ _ ?_ h
          simp only [write_state_file]
          exact List.Perm.cons name hperm2
        | false =>
          rw [hf, if_neg (by simp)] at h
          simp only [Prod.mk.injEq] at h
          obtain ⟨hfs, herr⟩ := h
          obtain rfl : name = B := by
            cases herr
            rfl
          refine ⟨removeKey cur name, ?_, ?_, ?_⟩
          · rw [← hfs]
            rfl
          · exact not_mem_keys_removeKey cur name
          · rw [← hfs]
            exact List.Perm.cons name hperm2
    · rw [if_pos hact] at h
      exact ih _ _ _ _ _ hperm2 h

/-- Claim C1, counterexample to the claim as stated: when the fetch tool
fails on `B`, `install_deps` returns `FetchFailed` with `B` absent from the
ledger, but `B`'s freshly created directory is still present on disk —
contradicting the claim that `B` is absent from *both* disk and ledger. -/
theorem fetchFailed_dir_left_on_disk :
    (install_deps (fun _ => false) true [] [(str "B", depB)]
        ⟨true, [], some [], 0⟩).2 = .error (.FetchFailed (str "B")) ∧
    str "B" ∈ (install_deps (fun _ => false) true [] [(str "B", depB)]
        ⟨true, [], some [], 0⟩).1.dirs ∧
    (install_deps (fun _ => false) true [] [(str "B", depB)]
        ⟨true, [], some [], 0⟩).1.ledger = some [] := by
  refine ⟨?_, ?_, ?_⟩ <;> decide

/-- Claim C1, amended: if `install_deps` returns `FetchFailed B` starting
from a directory set matching the current map, then the ledger as last
written is a map without `B`, and the on-disk directory set is exactly that
map's keys plus `B`'s freshly created (but unpopulated) directory: every
dependency processed before the failure matches the ledger, `B` was never
inserted into the ledger, and only `B`'s directory exceeds it. -/
theorem install_deps_fetchFailed (fetch : Dependency → Bool)
    (state_file_exists : Bool) (cur new : DepMap) (fs fs' : FsState)
    (B : Str)
    (hperm : fs.dirs.Perm (keys cur))
    (h : install_deps fetch state_file_exists cur new fs =
      (fs', .error (.FetchFailed B))) :
    ∃ m, fs'.ledger = some m ∧ B ∉ keys m ∧
      fs'.dirs.Perm (B :: keys m) := by
  unfold install_deps at h
  by_cases he : (actions cur new).isEmpty
  · rw [if_pos he] at h
    cases state_file_exists <;> simp at h
  · rw [if_neg he] at h
    exact execActs_fetchFailed fetch _ cur new fs fs' B hperm h

/-- Witness for the amended C1 at the concrete failing run. -/
theorem install_deps_fetchFailed_witness :
    ∃ m, (FsState.mk true [str "B"] (some []) 1).ledger = some m ∧
      str "B" ∉ keys m ∧
      (FsState.mk true [str "B"] (some []) 1).dirs.Perm (str "B" :: keys m) :=
  install_deps_fetchFailed (fun _ => false) true [] [(str "B", depB)]
    ⟨true, [], some [], 0⟩ ⟨true, [str "B"], some [], 1⟩ (str "B")
    (List.Perm.refl _) (by decide)

/-! Section: C6: missing vs non-UTF-8 ledger -/

/-- Claim C6: a missing ledger file yields the empty current map with no error,
while a ledger whose bytes are not valid UTF-8 is a hard
`ConvStateFileUtf8Failed` error, never treated as empty or absent. -/
theorem missing_vs_invalid_ledger :
    load_state none = .ok (false, []) ∧
    ∀ bytes, utf8Decode bytes = none →
      load_state (some bytes) = .error .ConvStateFileUtf8Failed := by
  constructor
  · rfl
  · intro bytes hb
    simp only [load_state, hb]

/-- Witness for C6 at a concrete invalid byte sequence. -/
theorem missing_vs_invalid_ledger_witness :
    load_state (some [0xFF]) = .error .ConvStateFileUtf8Failed :=
  missing_vs_invalid_ledger.2 [0xFF] (by decide)

/-! Section: C10: empty output-directory segments are dropped -/

theorem checkParts_ok (k : Nat) (parts : List Str) (path : PathSegs)
    (h1 : str "." ∉ parts) (h2 : str ".." ∉ parts) :
    checkParts k parts path =
      .ok (path ++ parts.filter (fun p => !p.isEmpty)) := by
  induction parts generalizing path with
  | nil => simp [checkParts]
  | cons part rest ih =>
    simp only [List.mem_cons, not_or] at h1 h2
    simp only [checkParts]
    rw [if_neg (not_or.mpr ⟨fun hh => h1.1 hh.symm, fun hh => h2.1 hh.symm⟩),
      ih (pathPush path part) h1.2 h2.2]
    by_cases hp : part.isEmpty <;>
      simp [pathPush, hp, List.filter_cons, List.append_assoc]

theorem checkParts_err (k : Nat) (parts : List Str) (path : PathSegs)
    (h : str "." ∈ parts ∨ str ".." ∈ parts) :
    ∃ part, (part = str "." ∨ part = str "..") ∧
      checkParts k parts path = .error (.InvalidPart k part) := by
  induction parts generalizing path with
  | nil => simp at h
  | cons part rest ih =>
    by_cases hp : part = str "." ∨ part = str ".."
    · exact ⟨part, hp, by simp only [checkParts]; rw [if_pos hp]⟩
    · have h' : str "." ∈ rest ∨ str ".." ∈ rest := by
        simp only [not_or] at hp
        rcases h with h | h <;> rcases List.mem_cons.mp h with h0 | hm
        · exact absurd h0.symm hp.1
        · exact Or.inl hm
        · exact absurd h0.symm hp.2
        · exact Or.inr hm
      obtain ⟨q, hq, hcp⟩ := ih (pathPush path part) h'
      exact ⟨q, hq, by simp only [checkParts]; rw [if_neg hp]; exact hcp⟩

/-- Claim C10: `parse_output_dir` accepts output-directory lines with empty
path segments — a leading `/`, a doubled `//`, or a trailing `/` — silently
dropping the empty segments (`/deps` parses to the relative path `deps`),
and rejects a line exactly when one of its segments is `.` or `..`. -/
theorem output_dir_empty_segments :
    parse_output_dir [(0, str "/deps")] = .ok ([str "deps"], []) ∧
    (∀ (i : Nat) (ln : Str) (rest : List (Nat × Str)),
      conf_line_is_skippable (trim_start ln) = false →
      str "." ∉ splitOn '/' (trim_start ln) →
      str ".." ∉ splitOn '/' (trim_start ln) →
      parse_output_dir ((i, ln) :: rest) =
        .ok ((splitOn '/' (trim_start ln)).filter (fun p => !p.isEmpty),
          rest)) ∧
    (∀ (i : Nat) (ln : Str) (rest : List (Nat × Str)),
      conf_line_is_skippable (trim_start ln) = false →
      (str "." ∈ splitOn '/' (trim_start ln) ∨
        str ".." ∈ splitOn '/' (trim_start ln)) →
      ∃ part, parse_output_dir ((i, ln) :: rest) =
        .error (.InvalidPart (i + 1) part)) := by
  refine ⟨by decide, ?_, ?_⟩
  · intro i ln rest hskip h1 h2
    simp only [parse_output_dir, hskip, Bool.false_eq_true, if_false,
      checkParts_ok (i + 1) _ [] h1 h2, List.nil_append]
  · intro i ln rest hskip h
    obtain ⟨part, -, hcp⟩ := checkParts_err (i + 1) _ [] h
    refine ⟨part, ?_⟩
    simp only [parse_output_dir, hskip, Bool.false_eq_true, if_false, hcp]

/-- Witness for C10's general clause at a line with leading, doubled and
trailing slashes. -/
theorem output_dir_empty_segments_witness :
    parse_output_dir [(0, str "a//b/")] = .ok ([str "a", str "b"], []) := by
  have h := output_dir_empty_segments.2.1 0 (str "a//b/") []
    (by decide) (by decide) (by decide)
  exact h

/-! Section: C8: a malformed dependency line aborts parsing with no mutation -/

theorem parse_dep_lines_append (acc : List (Str × Dependency × Nat))
    (xs ys : List (Nat × Str)) :
    parse_dep_lines acc (xs ++ ys) =
      match parse_dep_lines acc xs with
      | .error e => .error e
      | .ok acc1 => parse_dep_lines acc1 ys := by
  induction xs generalizing acc with
  | nil => simp [parse_dep_lines]
  | cons p rest ih =>
    obtain ⟨i, line⟩ := p
    simp only [List.cons_append, parse_dep_lines]
    cases h : parse_dep_line acc i line with
    | error e => rfl
    | ok acc1 => exact ih acc1

theorem parse_dep_line_invalid_spec (acc : List (Str × Dependency × Nat))
    (i : Nat) (line : Str)
    (hskip : conf_line_is_skippable (trim_start line) = false)
    (hlen : (split_ascii_whitespace (trim_start line)).length ≠ 4) :
    parse_dep_line acc i line =
      .error (.InvalidDepSpec (i + 1) (trim_start line)) := by
  rcases hw : split_ascii_whitespace (trim_start line) with
    _ | ⟨a, _ | ⟨b, _ | ⟨c, _ | ⟨d, _ | ⟨e, tail⟩⟩⟩⟩⟩
  · simp [parse_dep_line, hskip, hw]
  · simp [parse_dep_line, hskip, hw]
  · simp [parse_dep_line, hskip, hw]
  · simp [parse_dep_line, hskip, hw]
  · exact absurd (by rw [hw]; rfl) hlen
  · simp [parse_dep_line, hskip, hw]

/-- Claim C8: when the manifest's output directory parses and the dependency
section reaches a non-skippable line that does not split into exactly 4
fields, parsing fails with `InvalidDepSpec` carrying the 1-based line number
and the left-trimmed line text, and the install flow performs no filesystem
mutation: the state is returned exactly as it was. -/
theorem invalid_dep_spec_aborts (manifest : Str) (outDir : PathSegs)
    (good : List (Nat × Str)) (i : Nat) (ln : Str)
    (more : List (Nat × Str)) (acc : List (Str × Dependency × Nat))
    (h1 : parse_output_dir (linesOf manifest).enum =
      .ok (outDir, good ++ (i, ln) :: more))
    (h2 : parse_dep_lines [] good = .ok acc)
    (h3 : conf_line_is_skippable (trim_start ln) = false)
    (h4 : (split_ascii_whitespace (trim_start ln)).length ≠ 4) :
    parse_deps_conf manifest =
      .error (.ParseDepsFailed (.InvalidDepSpec (i + 1) (trim_start ln))) ∧
    ∀ (fetch : Dependency → Bool) (fs : FsState),
      installProject fetch manifest fs =
        (fs, .error (.ParseDepsConfFailed
          (.ParseDepsFailed (.InvalidDepSpec (i + 1) (trim_start ln))))) := by
  have hlines : parse_dep_lines [] (good ++ (i, ln) :: more) =
      .error (.InvalidDepSpec (i + 1) (trim_start ln)) := by
    rw [parse_dep_lines_append, h2]
    show parse_dep_lines acc ((i, ln) :: more) = _
    simp only [parse_dep_lines, parse_dep_line_invalid_spec acc i ln h3 h4]
  have hpd : parse_deps (good ++ (i, ln) :: more) =
      .error (.InvalidDepSpec (i + 1) (trim_start ln)) := by
    simp only [parse_deps, hlines]
  have hconf : parse_deps_conf manifest =
      .error (.ParseDepsFailed (.InvalidDepSpec (i + 1) (trim_start ln))) := by
    simp only [parse_deps_conf, h1, hpd]
  exact ⟨hconf, fun fetch fs => by simp only [installProject, hconf]⟩

/-- Witness for C8 at the spec's scenario 7 manifest (a 5-token line). -/
theorem invalid_dep_spec_aborts_witness :
    parse_deps_conf (str "deps\nproj tool source version extra\n") =
      .error (.ParseDepsFailed (.InvalidDepSpec 2
        (str "proj tool source version extra"))) ∧
    installProject (fun _ => true)
        (str "deps\nproj tool source version extra\n")
        ⟨false, [], none, 0⟩ =
      (⟨false, [], none, 0⟩, .error (.ParseDepsConfFailed
        (.ParseDepsFailed (.InvalidDepSpec 2
          (str "proj tool source version extra"))))) := by
  have h := invalid_dep_spec_aborts
    (str "deps\nproj tool source version extra\n") [str "deps"] [] 1
    (str "proj tool source version extra") [] []
    (by decide) rfl (by decide) (by decide)
  exact ⟨h.1, h.2 _ _⟩

/-! Section: C5: the ledger decoder does validate names -/

/-- Claim C5, counterexample to the claim as stated: the ledger decoder is the
same `parse_deps` used for manifests, so a well-formed 4-field ledger line
with a reserved or invalid-character name is *rejected*, not accepted. -/
theorem ledger_name_validation_counterexample :
    load_state (some (strBytes (str "current_dpnd.txt git a b\n"))) =
      .error (.ParseStateFileFailed (.ReservedDepName 1
        (str "current_dpnd.txt"))) ∧
    load_state (some (strBytes (str "a!b git s v\n"))) =
      .error (.ParseStateFileFailed
        (.DepNameContainsInvalidChar 1 (str "a!b") 1)) := by
  constructor <;> rfl

/-- Claim C5, amended: decoding the ledger applies the very same
name-validation as manifest dependency parsing: a 4-field line whose name
contains a character outside `[a-zA-Z0-9._-]` fails with
`DepNameContainsInvalidChar` at that character's byte offset, and one whose
name equals the reserved state-file name fails with `ReservedDepName`. -/
theorem ledger_name_validation (i : Nat) (ln : Str) (rest : List (Nat × Str))
    (name tool src ver : Str)
    (hskip : conf_line_is_skippable (trim_start ln) = false)
    (hsplit : split_ascii_whitespace (trim_start ln) = [name, tool, src, ver]) :
    (∀ k, find_bad_char name 0 = some k →
      parse_deps ((i, ln) :: rest) =
        .error (.DepNameContainsInvalidChar (i + 1) name k)) ∧
    (find_bad_char name 0 = none → name = state_file_name →
      parse_deps ((i, ln) :: rest) =
        .error (.ReservedDepName (i + 1) name)) := by
  constructor
  · intro k hk
    simp only [parse_deps, parse_dep_lines, parse_dep_line, hskip,
      Bool.false_eq_true, if_false, hsplit, hk]
  · intro hnone hres
    subst hres
    simp only [parse_deps, parse_dep_lines, parse_dep_line, hskip,
      Bool.false_eq_true, if_false, hsplit, hnone]
    simp

/-- Witness for the amended C5 at a concrete bad-name ledger line. -/
theorem ledger_name_validation_witness :
    parse_deps [(0, str "a!b git s v")] =
      .error (.DepNameContainsInvalidChar 1 (str "a!b") 1) :=
  (ledger_name_validation 0 (str "a!b git s v") [] (str "a!b") (str "git")
    (str "s") (str "v") (by decide) (by decide)).1 1 (by decide)

/-! Section: C4: ledger round-trip -/

theorem dep_name_char_props {c : Char} (h : is_dep_name_char c = true) :
    is_rust_whitespace c = false ∧ is_ascii_whitespace c = false ∧
      c ≠ '#' := by
  simp only [is_dep_name_char, Bool.or_eq_true, Bool.and_eq_true,
    decide_eq_true_eq] at h
  refine ⟨?_, ?_, ?_⟩
  · refine Bool.eq_false_iff.mpr fun hws => ?_
    simp only [is_rust_whitespace, Bool.or_eq_true, Bool.and_eq_true,
      decide_eq_true_eq] at hws
    omega
  · refine Bool.eq_false_iff.mpr fun hws => ?_
    simp only [is_ascii_whitespace, Bool.or_eq_true,
      decide_eq_true_eq] at hws
    omega
  · intro hc
    rw [hc] at h
    simp at h

theorem not_nl_of_ascii_ws_false {c : Char}
    (h : is_ascii_whitespace c = false) : c ≠ '\n' := by
  intro hc
  rw [hc] at h
  exact absurd h (by decide)

theorem not_cr_of_ascii_ws_false {c : Char}
    (h : is_ascii_whitespace c = false) : c ≠ '\r' := by
  intro hc
  rw [hc] at h
  exact absurd h (by decide)

theorem splitOn_append_sep (sep : Char) (x y : Str) (hx : sep ∉ x) :
    splitOn sep (x ++ sep :: y) = x :: splitOn sep y := by
  induction x with
  | nil =>
    simp [splitOn]
  | cons c x' ih =>
    simp only [List.mem_cons, not_or] at hx
    rw [List.cons_append]
    simp only [splitOn, List.append_eq]
    rw [if_neg fun hh => hx.1 hh.symm, ih hx.2]

theorem splitOn_flatten (sep : Char) (l : List Str)
    (h : ∀ x ∈ l, sep ∉ x) :
    splitOn sep ((l.map (fun x => x ++ [sep])).flatten) = l ++ [[]] := by
  induction l with
  | nil => rfl
  | cons x l' ih =>
    have hx : (x ++ [sep]) ++ (l'.map (fun x => x ++ [sep])).flatten =
        x ++ sep :: (l'.map (fun x => x ++ [sep])).flatten := by
      simp
    simp only [List.map_cons, List.flatten_cons, hx]
    rw [splitOn_append_sep sep _ _ (h x (List.mem_cons_self _ _)),
      ih fun q hq => h q (List.mem_cons_of_mem _ hq)]
    rfl

theorem linesOf_flatten (l : List Str)
    (h : ∀ x ∈ l, ('\n' : Char) ∉ x ∧ x.getLast? ≠ some '\r') :
    linesOf ((l.map (fun x => x ++ ['\n'])).flatten) = l := by
  simp only [linesOf]
  rw [splitOn_flatten '\n' l fun x hx => (h x hx).1]
  rw [List.getLast?_concat, if_pos rfl, List.dropLast_concat]
  have hmap : ∀ x ∈ l, (if x.getLast? = some '\r' then x.dropLast else x) = x :=
    fun x hx => if_neg (h x hx).2
  rw [List.map_congr_left hmap]
  exact List.map_id l

theorem split_ws_go_append_word (w : Str)
    (hw : ∀ c ∈ w, is_ascii_whitespace c = false) :
    ∀ (cur rest : Str), split_ws_go cur (w ++ rest) =
      split_ws_go (w.reverse ++ cur) rest := by
  induction w with
  | nil =>
    intro cur rest
    simp
  | cons c w' ih =>
    intro cur rest
    have hc : is_ascii_whitespace c = false := hw c (List.mem_cons_self _ _)
    rw [List.cons_append]
    simp only [split_ws_go, hc, Bool.false_eq_true, if_false]
    rw [ih (fun q hq => hw q (List.mem_cons_of_mem _ hq)) (c :: cur) rest]
    rw [show w'.reverse ++ (c :: cur) = (c :: w').reverse ++ cur by simp]

theorem reverse_isEmpty_false {w : Str} (hne : w ≠ []) :
    w.reverse.isEmpty = false := by
  rw [List.isEmpty_eq_false]
  simpa using hne

theorem split_ws_go_word_sep (w rest : Str) (hne : w ≠ [])
    (hw : ∀ c ∈ w, is_ascii_whitespace c = false) :
    split_ws_go [] (w ++ ' ' :: rest) = w :: split_ws_go [] rest := by
  rw [split_ws_go_append_word w hw [] (' ' :: rest), List.append_nil]
  simp only [split_ws_go, show is_ascii_whitespace ' ' = true from rfl,
    if_true, reverse_isEmpty_false hne, Bool.false_eq_true, if_false,
    List.reverse_reverse]

theorem split_ws_go_final (w : Str) (hne : w ≠ [])
    (hw : ∀ c ∈ w, is_ascii_whitespace c = false) :
    split_ws_go [] w = [w] := by
  have h := split_ws_go_append_word w hw [] []
  rw [List.append_nil] at h
  rw [h]
  simp only [split_ws_go, List.append_nil, reverse_isEmpty_false hne,
    Bool.false_eq_true, if_false, List.reverse_reverse]

theorem split_ascii_whitespace_dep_line (n : Str) (d : Dependency)
    (hval : valid_dep_entry n d) :
    split_ascii_whitespace (dep_line (n, d)) =
      [n, d.tool_name, d.source, d.version] := by
  obtain ⟨⟨hn_ne, hn_chars, -⟩, htool, ⟨hs_ne, hs_ws⟩, ⟨hv_ne, hv_ws⟩⟩ := hval
  have htool_eq : d.tool_name = str "git" := by
    simpa [tool_names] using htool
  have hn_ws : ∀ c ∈ n, is_ascii_whitespace c = false :=
    fun c hc => (dep_name_char_props (hn_chars c hc)).2.1
  have ht_ne : d.tool_name ≠ [] := by
    rw [htool_eq]
    exact fun h => by cases h
  have ht_ws : ∀ c ∈ d.tool_name, is_ascii_whitespace c = false := by
    rw [htool_eq]
    decide
  have hs_ws' : ∀ c ∈ d.source, is_ascii_whitespace c = false :=
    fun c hc => Bool.eq_false_iff.mpr (hs_ws c hc)
  have hv_ws' : ∀ c ∈ d.version, is_ascii_whitespace c = false :=
    fun c hc => Bool.eq_false_iff.mpr (hv_ws c hc)
  have hassoc : dep_line (n, d) =
      n ++ ' ' :: (d.tool_name ++ ' ' ::
        (d.source ++ ' ' :: d.version)) := by
    simp [dep_line]
  unfold split_ascii_whitespace
  rw [hassoc, split_ws_go_word_sep n _ hn_ne hn_ws,
    split_ws_go_word_sep _ _ ht_ne ht_ws,
    split_ws_go_word_sep _ _ hs_ne hs_ws',
    split_ws_go_final _ hv_ne hv_ws']

theorem find_bad_char_none (s : Str)
    (hs : ∀ c ∈ s, is_dep_name_char c = true) :
    ∀ idx, find_bad_char s idx = none := by
  induction s with
  | nil =>
    intro idx
    rfl
  | cons c s' ih =>
    intro idx
    simp only [find_bad_char, hs c (List.mem_cons_self _ _), if_true]
    exact ih (fun q hq => hs q (List.mem_cons_of_mem _ hq)) _

theorem parse_dep_line_encoded (acc : List (Str × Dependency × Nat)) (i : Nat)
    (n : Str) (d : Dependency) (hval : valid_dep_entry n d)
    (hacc : ∀ t ∈ acc, t.1 ≠ n) :
    parse_dep_line acc i (dep_line (n, d)) = .ok (acc ++ [(n, d, i + 1)]) := by
  have hsplit := split_ascii_whitespace_dep_line n d hval
  obtain ⟨⟨hne, hchars, hnres⟩, htool, hsrc, hver⟩ := hval
  obtain ⟨c, n', hn_eq⟩ : ∃ c n', n = c :: n' := by
    cases n with
    | nil => exact absurd rfl hne
    | cons c n' => exact ⟨c, n', rfl⟩
  have hcprops := dep_name_char_props
    (hchars c (hn_eq ▸ List.mem_cons_self _ _))
  obtain ⟨tail, htail⟩ : ∃ tail, dep_line (n, d) = c :: tail := by
    rw [hn_eq]
    refine ⟨n' ++ [' '] ++ d.tool_name ++ [' '] ++ d.source ++ [' '] ++
      d.version, ?_⟩
    simp [dep_line]
  have htrim : trim_start (c :: tail) = c :: tail := by
    simp [trim_start, List.dropWhile_cons, hcprops.1]
  have hskip : conf_line_is_skippable (c :: tail) = false := by
    simp [conf_line_is_skippable, hcprops.2.2]
  have hfbc : find_bad_char n 0 = none :=
    find_bad_char_none n hchars 0
  have hfind : acc.find? (fun t => t.1 = n) = none :=
    List.find?_eq_none.mpr fun t ht => by simp [hacc t ht]
  have hcont : tool_names.contains d.tool_name = true :=
    List.elem_eq_true_of_mem htool
  rw [htail] at hsplit ⊢
  simp only [parse_dep_line, htrim, hskip, Bool.false_eq_true, if_false,
    hsplit, hfbc]
  rw [if_neg hnres, hfind]
  simp only [hcont, eq_self_iff_true, if_true]

theorem parse_dep_lines_encoded (m : DepMap) :
    ∀ (acc : List (Str × Dependency × Nat)) (k : Nat),
      (keys m).Nodup →
      (∀ p ∈ m, valid_dep_entry p.1 p.2) →
      (∀ p ∈ m, ∀ t ∈ acc, t.1 ≠ p.1) →
      ∃ defns, parse_dep_lines acc (List.enumFrom k (m.map dep_line)) =
          .ok defns ∧
        defns.map (fun t => (t.1, t.2.1)) =
          acc.map (fun t => (t.1, t.2.1)) ++ m := by
  induction m with
  | nil =>
    intro acc k _ _ _
    exact ⟨acc, rfl, by simp⟩
  | cons p m' ih =>
    obtain ⟨n, d⟩ := p
    intro acc k hnd hval hdisj
    simp only [keys, List.map_cons, List.nodup_cons] at hnd
    have hstep := parse_dep_line_encoded acc k n d
      (hval (n, d) (List.mem_cons_self _ _))
      (fun t ht => hdisj (n, d) (List.mem_cons_self _ _) t ht)
    rw [List.map_cons]
    rw [show List.enumFrom k (dep_line (n, d) :: m'.map dep_line) =
      (k, dep_line (n, d)) :: List.enumFrom (k + 1) (m'.map dep_line)
      from rfl]
    simp only [parse_dep_lines, hstep]
    obtain ⟨defns, hd, hm⟩ := ih (acc ++ [(n, d, k + 1)]) (k + 1)
      hnd.2 (fun q hq => hval q (List.mem_cons_of_mem _ hq))
      (by
        rintro q hq t ht
        rcases List.mem_append.mp ht with ht1 | ht2
        · exact hdisj q (List.mem_cons_of_mem _ hq) t ht1
        · obtain rfl : t = (n, d, k + 1) := by simpa using ht2
          intro he
          apply hnd.1
          have hq1 : q.1 ∈ List.map Prod.fst m' :=
            List.mem_map_of_mem Prod.fst hq
          have he' : n = q.1 := he
          rwa [← he'] at hq1)
    refine ⟨defns, hd, ?_⟩
    rw [hm]
    simp

theorem linesOf_encode_state (m : DepMap)
    (hval : ∀ p ∈ m, valid_dep_entry p.1 p.2) :
    linesOf (encode_state m) = m.map dep_line := by
  unfold encode_state
  rw [show (m.map fun p => dep_line p ++ ['\n']) =
    ((m.map dep_line).map fun x => x ++ ['\n']) from by
      rw [List.map_map]
      rfl]
  refine linesOf_flatten (m.map dep_line) ?_
  rintro x hx
  obtain ⟨p, hp, rfl⟩ := List.mem_map.mp hx
  obtain ⟨⟨hne, hchars, -⟩, htool, ⟨hsne, hsws⟩, ⟨hvne, hvws⟩⟩ := hval p hp
  have htool_eq : p.2.tool_name = str "git" := by
    simpa [tool_names] using htool
  constructor
  · intro hmem
    simp only [dep_line, List.mem_append, List.mem_cons,
      List.not_mem_nil, or_false] at hmem
    rcases hmem with ((((((h | h) | h) | h) | h) | h) | h)
    · exact absurd (hchars '\n' h) (by decide)
    · exact absurd h (by decide)
    · rw [htool_eq] at h
      exact absurd h (by decide)
    · exact absurd h (by decide)
    · exact hsws '\n' h (by decide)
    · exact absurd h (by decide)
    · exact hvws '\n' h (by decide)
  · intro hlast
    have hlast' : (dep_line p).getLast? = p.2.version.getLast? := by
      simp only [dep_line]
      exact List.getLast?_append_of_ne_nil _ hvne
    exact hvws '\r' (List.mem_of_mem_getLast? (hlast' ▸ hlast)) (by decide)

/-- Claim C4: decoding with the dependency-line parser the text produced by
encoding a valid current-state map — names in `[a-zA-Z0-9._-]+` other than
the reserved state-file name, registered tool, nonempty whitespace-free
source and version — yields the map back unchanged. -/
theorem ledger_round_trip (m : DepMap)
    (hnodup : (keys m).Nodup)
    (hval : ∀ p ∈ m, valid_dep_entry p.1 p.2) :
    parse_deps (linesOf (encode_state m)).enum = .ok m := by
  rw [linesOf_encode_state m hval]
  obtain ⟨defns, hd, hm⟩ := parse_dep_lines_encoded m [] 0 hnodup hval
    (by intro p hp t ht; simp at ht)
  unfold parse_deps
  rw [show (m.map dep_line).enum = List.enumFrom 0 (m.map dep_line)
    from rfl, hd]
  show Except.ok (defns.map fun t => (t.1, t.2.1)) = Except.ok m
  rw [hm]
  simp

/-- Witness for C4 at a concrete two-entry map. -/
theorem ledger_round_trip_witness :
    parse_deps
        (linesOf (encode_state [(str "dep1", depB), (str "e2", depA)])).enum =
      .ok [(str "dep1", depB), (str "e2", depA)] :=
  ledger_round_trip _ (by decide) (by decide)

end Dpnd
